import Mathlib

/-!
Verification of `jedi/evaluate/dynamic.py` (dynamic parameter inference and
flow narrowing).  The definitions below are a shallow embedding of the
functions of that file; the parser's syntax-node classes
(`jedi.parser.representation`) and the settings module are not part of the
source tree, so their data model is reconstructed from the specification's
data-model section and marked as such.
-/

namespace JediDynamic

/-- Modelled from the spec: the kind tag of a container literal
(`jedi.parser.representation.Array.type`).  The scanner only distinguishes
keyed (`dict`) containers from sequential ones. -/
inductive ArrType where
  | dict
  | tuple
  | list
  | pyset
  | noarray
deriving DecidableEq, Repr

mutual
/-- Modelled from the spec: one element of a statement's expression list.  A
name reference or chained call is a `call`; a container literal or an
execution (argument) array is an `array`; operators and literals are `atom`s
(plain strings in the parser, neither calls nor container literals). -/
inductive Expr where
  | call (c : CallT) : Expr
  | array (a : Arr) : Expr
  | atom (s : String) : Expr

/-- Modelled from the spec: a link of a chained call expression: the invoked
name (`none` when the link's name is not a `Name` node, e.g. a literal; the
name's dotted parts otherwise), an optional execution (argument array) and the
optional next link (`s_new.next`). -/
inductive CallT where
  | mk (name : Option (List String)) (execution : Option Arr) (next : Option CallT) : CallT

/-- Modelled from the spec: a container literal / argument array with its kind
tag, keys (used only by keyed containers) and values, all statements. -/
inductive Arr where
  | mk (type : ArrType) (keys : List Stmt) (values : List Stmt) : Arr

/-- Modelled from the spec: a statement, with its expression list and its
assignment details (pairs of an expression list and an operator). -/
inductive Stmt where
  | mk (exprs : List Expr) (assignments : List (List Expr × String)) : Stmt
end

def CallT.name : CallT → Option (List String)
  | .mk n _ _ => n

def CallT.execution : CallT → Option Arr
  | .mk _ e _ => e

def CallT.next : CallT → Option CallT
  | .mk _ _ n => n

def Arr.type : Arr → ArrType
  | .mk t _ _ => t

def Arr.keys : Arr → List Stmt
  | .mk _ k _ => k

def Arr.values : Arr → List Stmt
  | .mk _ _ v => v

def Stmt.expression_list : Stmt → List Expr
  | .mk e _ => e

def Stmt.assignment_details : Stmt → List (List Expr × String)
  | .mk _ a => a

/-! ### The call-site scanner (`_scan_statement`) -/

/-- The `if isinstance(n, pr.Name) and search_name in n.names` test of the
chain walk: on a hit the source appends `orig` (the chain head `c`). -/
def nameMatches (orig : CallT) (n : Option (List String)) (search_name : String) : List CallT :=
  match n with
  | some names => if names.contains search_name then [orig] else []
  | none => []

/-- `isinstance(n, pr.Name) and search_name in n.names` as a Bool. -/
def nameHas (n : Option (List String)) (search_name : String) : Bool :=
  match n with
  | some names => names.contains search_name
  | none => false

mutual
/-- `_scan_statement` as invoked recursively by `scan_array` (the recursive
calls in the source use the default `assignment_details=False`, so only the
expression list is scanned). -/
def scanStmt (s : Stmt) (search_name : String) : List CallT :=
  match s with
  | .mk exprs _ => scanExprList exprs search_name
termination_by sizeOf s

/-- The `for c in check` loop of `_scan_statement`. -/
def scanExprList (l : List Expr) (search_name : String) : List CallT :=
  match l with
  | [] => []
  | e :: rest => scanExpr e search_name ++ scanExprList rest search_name
termination_by sizeOf l

/-- The loop body of `_scan_statement`: container literals go to `scan_array`,
calls to the chain walk (in the source the `isinstance(c, pr.Array)` test comes
before the `isinstance(c, pr.Call)` test, so containers are never chain-walked). -/
def scanExpr (e : Expr) (search_name : String) : List CallT :=
  match e with
  | .array a => scan_array a search_name
  | .call c => scanChain c c search_name
  | .atom _ => []
termination_by sizeOf e

/-- The `while s_new is not None` chain walk of `_scan_statement`.  `orig` is
the `c` that the source appends on a name match. -/
def scanChain (orig cur : CallT) (search_name : String) : List CallT :=
  match cur with
  | .mk n exec nxt =>
    nameMatches orig n search_name ++ scanExecOpt exec search_name ++
      scanNextOpt orig nxt search_name
termination_by sizeOf cur

/-- The `if s_new.execution is not None` step of the chain walk. -/
def scanExecOpt (exec : Option Arr) (search_name : String) : List CallT :=
  match exec with
  | some a => scan_array a search_name
  | none => []
termination_by sizeOf exec

/-- The `s_new = s_new.next` step of the chain walk. -/
def scanNextOpt (orig : CallT) (nxt : Option CallT) (search_name : String) : List CallT :=
  match nxt with
  | some c2 => scanChain orig c2 search_name
  | none => []
termination_by sizeOf nxt

/-- `scan_array` of `_scan_statement`. -/
def scan_array (a : Arr) (search_name : String) : List CallT :=
  match a with
  | .mk t ks vs =>
    if t = ArrType.dict then scanPairs ks vs search_name
    else scanStmtList vs search_name
termination_by sizeOf a

/-- The `for key_stmt, value_stmt in arr.items()` loop of `scan_array`
(`items()` zips keys with values). -/
def scanPairs (ks vs : List Stmt) (search_name : String) : List CallT :=
  match ks, vs with
  | k :: ks2, v :: vs2 =>
    scanStmt k search_name ++ scanStmt v search_name ++ scanPairs ks2 vs2 search_name
  | _, _ => []
termination_by sizeOf ks + sizeOf vs

/-- The `for stmt in arr` loop of `scan_array` (sequential containers). -/
def scanStmtList (l : List Stmt) (search_name : String) : List CallT :=
  match l with
  | [] => []
  | s :: rest => scanStmt s search_name ++ scanStmtList rest search_name
termination_by sizeOf l
end

/-- `_scan_statement(stmt, search_name, assignment_details)`: the `check` list
is the statement's expression list, extended — when `assignment_details` is
set — with every expression list of the statement's assignment details. -/
def _scan_statement (stmt : Stmt) (search_name : String)
    (assignment_details : Bool := false) : List CallT :=
  match stmt with
  | .mk exprs assigns =>
    scanExprList
      (exprs ++ (if assignment_details then (assigns.map (·.1)).flatten else []))
      search_name

/-! ### Occurrence predicate for the scanner's specification

`mentions…` answers "does a call invoking `search_name` occur at some
scanner-reachable position" — the positions described by the spec: top-level
expressions, elements (and keys/values) of container literals at any depth,
links of a call chain, and arguments of an execution at any depth. -/

mutual
def mentionsStmt (s : Stmt) (search_name : String) : Bool :=
  match s with
  | .mk exprs _ => mentionsExprList exprs search_name
termination_by sizeOf s

def mentionsExprList (l : List Expr) (search_name : String) : Bool :=
  match l with
  | [] => false
  | e :: rest => mentionsExpr e search_name || mentionsExprList rest search_name
termination_by sizeOf l

def mentionsExpr (e : Expr) (search_name : String) : Bool :=
  match e with
  | .array a => mentionsArr a search_name
  | .call c => mentionsChain c search_name
  | .atom _ => false
termination_by sizeOf e

def mentionsChain (cur : CallT) (search_name : String) : Bool :=
  match cur with
  | .mk n exec nxt =>
    nameHas n search_name || mentionsExecOpt exec search_name ||
      mentionsNextOpt nxt search_name
termination_by sizeOf cur

def mentionsExecOpt (exec : Option Arr) (search_name : String) : Bool :=
  match exec with
  | some a => mentionsArr a search_name
  | none => false
termination_by sizeOf exec

def mentionsNextOpt (nxt : Option CallT) (search_name : String) : Bool :=
  match nxt with
  | some c2 => mentionsChain c2 search_name
  | none => false
termination_by sizeOf nxt

def mentionsArr (a : Arr) (search_name : String) : Bool :=
  match a with
  | .mk t ks vs =>
    if t = ArrType.dict then mentionsPairs ks vs search_name
    else mentionsStmtList vs search_name
termination_by sizeOf a

def mentionsPairs (ks vs : List Stmt) (search_name : String) : Bool :=
  match ks, vs with
  | k :: ks2, v :: vs2 =>
    mentionsStmt k search_name || mentionsStmt v search_name || mentionsPairs ks2 vs2 search_name
  | _, _ => false
termination_by sizeOf ks + sizeOf vs

def mentionsStmtList (l : List Stmt) (search_name : String) : Bool :=
  match l with
  | [] => false
  | s :: rest => mentionsStmt s search_name || mentionsStmtList rest search_name
termination_by sizeOf l
end

/-- Occurrence over the `check` list assembled by `_scan_statement`. -/
def mentions_statement (stmt : Stmt) (search_name : String)
    (assignment_details : Bool := false) : Bool :=
  match stmt with
  | .mk exprs assigns =>
    mentionsExprList
      (exprs ++ (if assignment_details then (assigns.map (·.1)).flatten else []))
      search_name

mutual
/-- Does some link of the chain starting at this call invoke `search_name`?
(The chain is the `next`-walk; this is what "the call invokes the name" means
for a returned match.) -/
def chainHasName (search_name : String) (c : CallT) : Bool :=
  match c with
  | .mk n _ nxt => nameHas n search_name || nextHasName search_name nxt
termination_by sizeOf c

def nextHasName (search_name : String) (nxt : Option CallT) : Bool :=
  match nxt with
  | some c2 => chainHasName search_name c2
  | none => false
termination_by sizeOf nxt
end

theorem nameMatches_empty (orig : CallT) (n : Option (List String)) (sn : String) :
    nameMatches orig n sn = [] ↔ nameHas n sn = false := by
  cases n with
  | none => simp [nameMatches, nameHas]
  | some names =>
    by_cases hc : names.contains sn = true
    · simp [nameMatches, nameHas, hc]
    · simp [nameMatches, nameHas, hc]

mutual
theorem scanStmt_empty (s : Stmt) (n : String) :
    scanStmt s n = [] ↔ mentionsStmt s n = false := by
  match s with
  | .mk exprs a =>
    rw [scanStmt, mentionsStmt]
    exact scanExprList_empty exprs n
termination_by sizeOf s

theorem scanExprList_empty (l : List Expr) (n : String) :
    scanExprList l n = [] ↔ mentionsExprList l n = false := by
  match l with
  | [] => simp [scanExprList, mentionsExprList]
  | e :: rest =>
    rw [scanExprList, mentionsExprList]
    simp only [List.append_eq_nil, Bool.or_eq_false_iff]
    exact and_congr (scanExpr_empty e n) (scanExprList_empty rest n)
termination_by sizeOf l

theorem scanExpr_empty (e : Expr) (n : String) :
    scanExpr e n = [] ↔ mentionsExpr e n = false := by
  match e with
  | .array a =>
    rw [scanExpr, mentionsExpr]
    exact scanArr_empty a n
  | .call c =>
    rw [scanExpr, mentionsExpr]
    exact scanChain_empty c c n
  | .atom s => simp [scanExpr, mentionsExpr]
termination_by sizeOf e

theorem scanChain_empty (orig cur : CallT) (n : String) :
    scanChain orig cur n = [] ↔ mentionsChain cur n = false := by
  match cur with
  | .mk nm exec nxt =>
    rw [scanChain, mentionsChain]
    simp only [List.append_eq_nil, Bool.or_eq_false_iff]
    refine and_congr (and_congr (nameMatches_empty orig nm n) ?_) ?_
    · exact scanExecOpt_empty exec n
    · exact scanNextOpt_empty orig nxt n
termination_by sizeOf cur

theorem scanExecOpt_empty (exec : Option Arr) (n : String) :
    scanExecOpt exec n = [] ↔ mentionsExecOpt exec n = false := by
  match exec with
  | some a =>
    rw [scanExecOpt, mentionsExecOpt]
    exact scanArr_empty a n
  | none => simp [scanExecOpt, mentionsExecOpt]
termination_by sizeOf exec

theorem scanNextOpt_empty (orig : CallT) (nxt : Option CallT) (n : String) :
    scanNextOpt orig nxt n = [] ↔ mentionsNextOpt nxt n = false := by
  match nxt with
  | some c2 =>
    rw [scanNextOpt, mentionsNextOpt]
    exact scanChain_empty orig c2 n
  | none => simp [scanNextOpt, mentionsNextOpt]
termination_by sizeOf nxt

theorem scanArr_empty (a : Arr) (n : String) :
    scan_array a n = [] ↔ mentionsArr a n = false := by
  match a with
  | .mk t ks vs =>
    rw [scan_array, mentionsArr]
    by_cases ht : t = ArrType.dict
    · simp only [ht, if_true]
      exact scanPairs_empty ks vs n
    · simp only [ht, if_false]
      exact scanStmtList_empty vs n
termination_by sizeOf a

theorem scanPairs_empty (ks vs : List Stmt) (n : String) :
    scanPairs ks vs n = [] ↔ mentionsPairs ks vs n = false := by
  match ks, vs with
  | k :: ks2, v :: vs2 =>
    rw [scanPairs, mentionsPairs]
    simp only [List.append_eq_nil, Bool.or_eq_false_iff]
    refine and_congr (and_congr ?_ ?_) ?_
    · exact scanStmt_empty k n
    · exact scanStmt_empty v n
    · exact scanPairs_empty ks2 vs2 n
  | [], _ => simp [scanPairs, mentionsPairs]
  | _ :: _, [] => simp [scanPairs, mentionsPairs]
termination_by sizeOf ks + sizeOf vs

theorem scanStmtList_empty (l : List Stmt) (n : String) :
    scanStmtList l n = [] ↔ mentionsStmtList l n = false := by
  match l with
  | [] => simp [scanStmtList, mentionsStmtList]
  | s :: rest =>
    rw [scanStmtList, mentionsStmtList]
    simp only [List.append_eq_nil, Bool.or_eq_false_iff]
    exact and_congr (scanStmt_empty s n) (scanStmtList_empty rest n)
termination_by sizeOf l
end

theorem nameMatches_sound (orig : CallT) (nm : Option (List String)) (sn : String)
    (r : CallT) (hr : r ∈ nameMatches orig nm sn) :
    r = orig ∧ nameHas nm sn = true := by
  cases nm with
  | none => simp [nameMatches] at hr
  | some names =>
    by_cases hc : names.contains sn = true
    · rw [nameMatches, if_pos hc, List.mem_singleton] at hr
      exact ⟨hr, by rw [nameHas]; exact hc⟩
    · rw [nameMatches, if_neg hc] at hr
      exact absurd hr (List.not_mem_nil r)

mutual
theorem scanStmt_sound (s : Stmt) (n : String) :
    ∀ r ∈ scanStmt s n, chainHasName n r = true := by
  match s with
  | .mk exprs a =>
    rw [scanStmt]
    exact scanExprList_sound exprs n
termination_by sizeOf s

theorem scanExprList_sound (l : List Expr) (n : String) :
    ∀ r ∈ scanExprList l n, chainHasName n r = true := by
  match l with
  | [] => simp [scanExprList]
  | e :: rest =>
    intro r hr
    rw [scanExprList] at hr
    rcases List.mem_append.1 hr with h | h
    · exact scanExpr_sound e n r h
    · exact scanExprList_sound rest n r h
termination_by sizeOf l

theorem scanExpr_sound (e : Expr) (n : String) :
    ∀ r ∈ scanExpr e n, chainHasName n r = true := by
  match e with
  | .array a =>
    rw [scanExpr]
    exact scanArr_sound a n
  | .call c =>
    rw [scanExpr]
    exact scanChain_sound c c n (fun h => h)
  | .atom s => simp [scanExpr]
termination_by sizeOf e

theorem scanChain_sound (orig cur : CallT) (n : String)
    (himp : chainHasName n cur = true → chainHasName n orig = true) :
    ∀ r ∈ scanChain orig cur n, chainHasName n r = true := by
  match cur with
  | .mk nm exec nxt =>
    intro r hr
    rw [scanChain] at hr
    simp only [List.mem_append] at hr
    rcases hr with (ha | hb) | hc
    · obtain ⟨rfl, hname⟩ := nameMatches_sound orig nm n r ha
      exact himp (by rw [chainHasName, hname, Bool.true_or])
    · exact scanExecOpt_sound exec n r hb
    · exact scanNextOpt_sound orig nxt n
        (fun h2 => himp (by rw [chainHasName, h2, Bool.or_true])) r hc
termination_by sizeOf cur

theorem scanExecOpt_sound (exec : Option Arr) (n : String) :
    ∀ r ∈ scanExecOpt exec n, chainHasName n r = true := by
  match exec with
  | some a =>
    rw [scanExecOpt]
    exact scanArr_sound a n
  | none => simp [scanExecOpt]
termination_by sizeOf exec

theorem scanNextOpt_sound (orig : CallT) (nxt : Option CallT) (n : String)
    (himp : nextHasName n nxt = true → chainHasName n orig = true) :
    ∀ r ∈ scanNextOpt orig nxt n, chainHasName n r = true := by
  match nxt with
  | some c2 =>
    rw [scanNextOpt]
    exact scanChain_sound orig c2 n (fun h2 => himp (by rw [nextHasName]; exact h2))
  | none => simp [scanNextOpt]
termination_by sizeOf nxt

theorem scanArr_sound (a : Arr) (n : String) :
    ∀ r ∈ scan_array a n, chainHasName n r = true := by
  match a with
  | .mk t ks vs =>
    rw [scan_array]
    by_cases ht : t = ArrType.dict
    · simp only [ht, if_true]
      exact scanPairs_sound ks vs n
    · simp only [ht, if_false]
      exact scanStmtList_sound vs n
termination_by sizeOf a

theorem scanPairs_sound (ks vs : List Stmt) (n : String) :
    ∀ r ∈ scanPairs ks vs n, chainHasName n r = true := by
  match ks, vs with
  | k :: ks2, v :: vs2 =>
    intro r hr
    rw [scanPairs] at hr
    simp only [List.mem_append] at hr
    rcases hr with (h | h) | h
    · exact scanStmt_sound k n r h
    · exact scanStmt_sound v n r h
    · exact scanPairs_sound ks2 vs2 n r h
  | [], _ => simp [scanPairs]
  | _ :: _, [] => simp [scanPairs]
termination_by sizeOf ks + sizeOf vs

theorem scanStmtList_sound (l : List Stmt) (n : String) :
    ∀ r ∈ scanStmtList l n, chainHasName n r = true := by
  match l with
  | [] => simp [scanStmtList]
  | s :: rest =>
    intro r hr
    rw [scanStmtList] at hr
    rcases List.mem_append.1 hr with h | h
    · exact scanStmt_sound s n r h
    · exact scanStmtList_sound rest n r h
termination_by sizeOf l
end

theorem scanChain_complete (orig cur : CallT) (n : String)
    (h : chainHasName n cur = true) : orig ∈ scanChain orig cur n := by
  match cur with
  | .mk nm exec nxt =>
    rw [scanChain]
    rw [chainHasName] at h
    simp only [List.mem_append]
    rcases Bool.or_eq_true_iff.1 h with hn | hx
    · left; left
      cases nm with
      | none => simp [nameHas] at hn
      | some names =>
        rw [nameHas] at hn
        rw [nameMatches, if_pos hn]
        exact List.mem_singleton.2 rfl
    · right
      cases nxt with
      | none => simp [nextHasName] at hx
      | some c2 =>
        rw [nextHasName] at hx
        rw [scanNextOpt]
        exact scanChain_complete orig c2 n hx
termination_by sizeOf cur

theorem scanExprList_complete (l : List Expr) (n : String) (c : CallT)
    (hmem : Expr.call c ∈ l) (hname : chainHasName n c = true) :
    c ∈ scanExprList l n := by
  induction l with
  | nil => simp at hmem
  | cons e rest ih =>
    rw [scanExprList]
    rcases List.mem_cons.1 hmem with he | hrest
    · refine List.mem_append_left _ ?_
      rw [← he, scanExpr]
      exact scanChain_complete c c n hname
    · exact List.mem_append_right _ (ih hrest)

/-! ### Scanner-reachable occurrences of a call

`occurs…` says where the scanner can encounter a call expression `c` as a
potential result: as the head of a chain in a scanned expression list — at the
top level, inside a container literal's elements (and keys/values) at any
depth, or inside the argument statements of any execution along any reachable
chain.  These are exactly the nesting positions the claim's "nested at any
container-literal or call-argument depth" describes. -/

mutual
def occursStmt (c : CallT) (s : Stmt) : Prop :=
  match s with
  | .mk exprs _ => occursExprList c exprs
termination_by sizeOf s

def occursExprList (c : CallT) (l : List Expr) : Prop :=
  match l with
  | [] => False
  | e :: rest => occursExpr c e ∨ occursExprList c rest
termination_by sizeOf l

def occursExpr (c : CallT) (e : Expr) : Prop :=
  match e with
  | .array a => occursArr c a
  | .call c2 => c = c2 ∨ occursChainArgs c c2
  | .atom _ => False
termination_by sizeOf e

def occursChainArgs (c : CallT) (cur : CallT) : Prop :=
  match cur with
  | .mk _ exec nxt => occursExecOpt c exec ∨ occursNextArgs c nxt
termination_by sizeOf cur

def occursExecOpt (c : CallT) (exec : Option Arr) : Prop :=
  match exec with
  | some a => occursArr c a
  | none => False
termination_by sizeOf exec

def occursNextArgs (c : CallT) (nxt : Option CallT) : Prop :=
  match nxt with
  | some c2 => occursChainArgs c c2
  | none => False
termination_by sizeOf nxt

def occursArr (c : CallT) (a : Arr) : Prop :=
  match a with
  | .mk t ks vs =>
    if t = ArrType.dict then occursPairs c ks vs else occursStmtList c vs
termination_by sizeOf a

def occursPairs (c : CallT) (ks vs : List Stmt) : Prop :=
  match ks, vs with
  | k :: ks2, v :: vs2 => occursStmt c k ∨ occursStmt c v ∨ occursPairs c ks2 vs2
  | _, _ => False
termination_by sizeOf ks + sizeOf vs

def occursStmtList (c : CallT) (l : List Stmt) : Prop :=
  match l with
  | [] => False
  | s :: rest => occursStmt c s ∨ occursStmtList c rest
termination_by sizeOf l
end

/-- Scanner-reachable occurrence over the `check` list assembled by
`_scan_statement`. -/
def occurs_statement (c : CallT) (stmt : Stmt)
    (assignment_details : Bool := false) : Prop :=
  match stmt with
  | .mk exprs assigns =>
    occursExprList c
      (exprs ++ (if assignment_details then (assigns.map (·.1)).flatten else []))

mutual
theorem scanStmt_occurs (s : Stmt) (n : String) (c : CallT)
    (ho : occursStmt c s) (hc : chainHasName n c = true) : c ∈ scanStmt s n := by
  match s with
  | .mk exprs a =>
    rw [scanStmt]
    rw [occursStmt] at ho
    exact scanExprList_occurs exprs n c ho hc
termination_by sizeOf s

theorem scanExprList_occurs (l : List Expr) (n : String) (c : CallT)
    (ho : occursExprList c l) (hc : chainHasName n c = true) :
    c ∈ scanExprList l n := by
  match l with
  | [] =>
    rw [occursExprList] at ho
    exact ho.elim
  | e :: rest =>
    rw [scanExprList]
    rw [occursExprList] at ho
    rcases ho with h | h
    · exact List.mem_append_left _ (scanExpr_occurs e n c h hc)
    · exact List.mem_append_right _ (scanExprList_occurs rest n c h hc)
termination_by sizeOf l

theorem scanExpr_occurs (e : Expr) (n : String) (c : CallT)
    (ho : occursExpr c e) (hc : chainHasName n c = true) : c ∈ scanExpr e n := by
  match e with
  | .array a =>
    rw [scanExpr]
    rw [occursExpr] at ho
    exact scanArr_occurs a n c ho hc
  | .call c2 =>
    rw [scanExpr]
    rw [occursExpr] at ho
    rcases ho with rfl | h
    · exact scanChain_complete c c n hc
    · exact scanChainArgs_occurs c2 c2 n c h hc
  | .atom s =>
    rw [occursExpr] at ho
    exact ho.elim
termination_by sizeOf e

theorem scanChainArgs_occurs (orig cur : CallT) (n : String) (c : CallT)
    (ho : occursChainArgs c cur) (hc : chainHasName n c = true) :
    c ∈ scanChain orig cur n := by
  match cur with
  | .mk nm exec nxt =>
    rw [scanChain]
    rw [occursChainArgs] at ho
    rcases ho with h | h
    · exact List.mem_append_left _
        (List.mem_append_right _ (scanExecOpt_occurs exec n c h hc))
    · exact List.mem_append_right _ (scanNextOpt_occurs orig nxt n c h hc)
termination_by sizeOf cur

theorem scanExecOpt_occurs (exec : Option Arr) (n : String) (c : CallT)
    (ho : occursExecOpt c exec) (hc : chainHasName n c = true) :
    c ∈ scanExecOpt exec n := by
  match exec with
  | some a =>
    rw [scanExecOpt]
    rw [occursExecOpt] at ho
    exact scanArr_occurs a n c ho hc
  | none =>
    rw [occursExecOpt] at ho
    exact ho.elim
termination_by sizeOf exec

theorem scanNextOpt_occurs (orig : CallT) (nxt : Option CallT) (n : String)
    (c : CallT) (ho : occursNextArgs c nxt) (hc : chainHasName n c = true) :
    c ∈ scanNextOpt orig nxt n := by
  match nxt with
  | some c2 =>
    rw [scanNextOpt]
    rw [occursNextArgs] at ho
    exact scanChainArgs_occurs orig c2 n c ho hc
  | none =>
    rw [occursNextArgs] at ho
    exact ho.elim
termination_by sizeOf nxt

theorem scanArr_occurs (a : Arr) (n : String) (c : CallT)
    (ho : occursArr c a) (hc : chainHasName n c = true) : c ∈ scan_array a n := by
  match a with
  | .mk t ks vs =>
    rw [scan_array]
    rw [occursArr] at ho
    by_cases ht : t = ArrType.dict
    · rw [if_pos ht]
      rw [if_pos ht] at ho
      exact scanPairs_occurs ks vs n c ho hc
    · rw [if_neg ht]
      rw [if_neg ht] at ho
      exact scanStmtList_occurs vs n c ho hc
termination_by sizeOf a

theorem scanPairs_occurs (ks vs : List Stmt) (n : String) (c : CallT)
    (ho : occursPairs c ks vs) (hc : chainHasName n c = true) :
    c ∈ scanPairs ks vs n := by
  match ks, vs with
  | k :: ks2, v :: vs2 =>
    rw [scanPairs]
    rw [occursPairs] at ho
    rcases ho with h | h | h
    · exact List.mem_append_left _
        (List.mem_append_left _ (scanStmt_occurs k n c h hc))
    · exact List.mem_append_left _
        (List.mem_append_right _ (scanStmt_occurs v n c h hc))
    · exact List.mem_append_right _ (scanPairs_occurs ks2 vs2 n c h hc)
  | [], _ =>
    rw [occursPairs] at ho
    exact ho.elim
    intro k ks2 v vs2 h1 h2
    exact List.noConfusion h1
  | _ :: _, [] =>
    rw [occursPairs] at ho
    exact ho.elim
    intro k ks2 v vs2 h1 h2
    exact List.noConfusion h2
termination_by sizeOf ks + sizeOf vs

theorem scanStmtList_occurs (l : List Stmt) (n : String) (c : CallT)
    (ho : occursStmtList c l) (hc : chainHasName n c = true) :
    c ∈ scanStmtList l n := by
  match l with
  | [] =>
    rw [occursStmtList] at ho
    exact ho.elim
  | s :: rest =>
    rw [scanStmtList]
    rw [occursStmtList] at ho
    rcases ho with h | h
    · exact List.mem_append_left _ (scanStmt_occurs s n c h hc)
    · exact List.mem_append_right _ (scanStmtList_occurs rest n c h hc)
termination_by sizeOf l
end

/-- C2: `_scan_statement` returns exactly the call expressions invoking
`search_name`: (1) the result is empty precisely when no call to the name
occurs at any scanner-reachable (container-literal or call-argument) depth of
the statement's checked expression lists; (2) every returned call's chain
invokes `search_name` (so no returned call's invoked name differs from the
target, even when the name appears only as an argument value elsewhere — such
an occurrence is returned as its own matching inner call, never as the
enclosing one); (3) any top-level call chain invoking the name is itself in
the result; (4) completeness at every depth: every call occurring at a
scanner-reachable position — a top-level chain head, an element (or key or
value) of a container literal at any depth, or inside the arguments of any
execution along any reachable chain — whose chain invokes `search_name` is in
the result.  The embedding is a pure function of `(stmt, search_name)`, so the
input statement is never mutated. -/
theorem scan_statement_spec (stmt : Stmt) (n : String) (ad : Bool) :
    (_scan_statement stmt n ad = [] ↔ mentions_statement stmt n ad = false)
    ∧ (∀ r ∈ _scan_statement stmt n ad, chainHasName n r = true)
    ∧ (∀ c : CallT, Expr.call c ∈ stmt.expression_list → chainHasName n c = true →
        c ∈ _scan_statement stmt n ad)
    ∧ (∀ c : CallT, occurs_statement c stmt ad → chainHasName n c = true →
        c ∈ _scan_statement stmt n ad) := by
  match stmt with
  | .mk exprs assigns =>
    refine ⟨?_, ?_, ?_, ?_⟩
    · rw [_scan_statement, mentions_statement]
      exact scanExprList_empty _ n
    · intro r hr
      rw [_scan_statement] at hr
      exact scanExprList_sound _ n r hr
    · intro c hcmem hcname
      rw [_scan_statement]
      refine scanExprList_complete _ n c ?_ hcname
      exact List.mem_append_left _ (by simpa [Stmt.expression_list] using hcmem)
    · intro c ho hc
      rw [_scan_statement]
      rw [occurs_statement] at ho
      exact scanExprList_occurs _ n c ho hc

/-! ### Concrete example for the scanner: `foo(bar(baz))` -/

def bazCall : CallT := .mk (some ["baz"]) (some (.mk ArrType.noarray [] [])) none

def barCall : CallT :=
  .mk (some ["bar"]) (some (.mk ArrType.noarray [] [Stmt.mk [Expr.call bazCall] []])) none

def fooCall : CallT :=
  .mk (some ["foo"]) (some (.mk ArrType.noarray [] [Stmt.mk [Expr.call barCall] []])) none

def exampleStmt : Stmt := .mk [Expr.call fooCall] []

/-- Witness for C2: on `foo(bar(baz))` the inner `baz` call — nested two
argument levels deep — occurs at a scanner-reachable position, its chain
invokes the searched name, and the theorem's nested-completeness part puts it
in the result; the top-level chain head is found when searching for `foo`. -/
theorem scan_statement_spec_witness :
    (bazCall ∈ _scan_statement exampleStmt "baz" false
      ∧ chainHasName "baz" bazCall = true)
    ∧ (Expr.call fooCall ∈ exampleStmt.expression_list
      ∧ chainHasName "foo" fooCall = true
      ∧ fooCall ∈ _scan_statement exampleStmt "foo" false)
    ∧ (occurs_statement bazCall exampleStmt false
      ∧ bazCall ∈ _scan_statement exampleStmt "baz" false) := by
  have hbaz : _scan_statement exampleStmt "baz" false = [bazCall] := by
    simp [_scan_statement, exampleStmt, fooCall, barCall, bazCall, scanStmt,
      scanExprList, scanExpr, scanChain, scanExecOpt, scanNextOpt, scan_array,
      scanStmtList, scanPairs, nameMatches]
  have hfoo : _scan_statement exampleStmt "foo" false = [fooCall] := by
    simp [_scan_statement, exampleStmt, fooCall, barCall, bazCall, scanStmt,
      scanExprList, scanExpr, scanChain, scanExecOpt, scanNextOpt, scan_array,
      scanStmtList, scanPairs, nameMatches]
  have hmemfoo : Expr.call fooCall ∈ exampleStmt.expression_list := by
    simp [exampleStmt, Stmt.expression_list]
  have hnamefoo : chainHasName "foo" fooCall = true := by
    simp [chainHasName, nextHasName, nameHas, fooCall]
  have hnamebaz : chainHasName "baz" bazCall = true := by
    simp [chainHasName, nextHasName, nameHas, bazCall]
  have hocc : occurs_statement bazCall exampleStmt false := by
    simp [occurs_statement, exampleStmt, fooCall, barCall, bazCall, occursStmt,
      occursExprList, occursExpr, occursChainArgs, occursExecOpt,
      occursNextArgs, occursArr, occursStmtList, occursPairs]
  refine ⟨⟨?_, ?_⟩, ⟨hmemfoo, hnamefoo, ?_⟩, hocc, ?_⟩
  · rw [hbaz]
    exact List.Mem.head _
  · exact (scan_statement_spec exampleStmt "baz" false).2.1 bazCall
      (by rw [hbaz]; exact List.Mem.head _)
  · exact (scan_statement_spec exampleStmt "foo" false).2.2.1 fooCall hmemfoo hnamefoo
  · exact (scan_statement_spec exampleStmt "baz" false).2.2.2 bazCall hocc hnamebaz

/-! ### The call-path split of `get_posibilities` (C6)

`get_posibilities` flattens each matched call into a call path
(`c.generate_call_path()`: name parts and execution arrays, in order), takes
the rightmost index of the search name, splits the path there, and decides
whether to skip the match (`if not last and not call_path.index(func_name) != i:
continue`). -/

/-- Modelled from the spec: one segment of a flattened call path — a name part
or an execution (argument) array. -/
inductive PathElem where
  | name (s : String) : PathElem
  | array (a : Arr) : PathElem

/-- Python `element == func_name` for a path element: name parts are compared
as strings, an execution array never equals a string. -/
def path_elem_matches (v : String) (e : PathElem) : Bool :=
  match e with
  | .name s => s == v
  | .array _ => false

/-- `listRightIndex(lst, value)` of `get_posibilities`:
`len(lst) - lst[-1::-1].index(value) - 1`. -/
def listRightIndex (lst : List PathElem) (value : String) : Nat :=
  lst.length - lst.reverse.findIdx (path_elem_matches value) - 1

/-- Lines 166—174 of `get_posibilities`: split the call path at the rightmost
occurrence of the search name; `none` means the match is skipped
(`continue`), `some (first, last)` means it is processed with that prefix and
suffix.  The skip test is the source's
`not last and not call_path.index(func_name) != i`. -/
def split_call_path (call_path : List PathElem) (func_name : String) :
    Option (List PathElem × List PathElem) :=
  let i := listRightIndex call_path func_name
  let first := call_path.take i
  let last := call_path.drop (i + 1)
  if last.isEmpty && !(call_path.findIdx (path_elem_matches func_name) != i) then none
  else some (first , last)

/-- C6 counterexample: the claim says a no-suffix match is skipped exactly when
the name also occurs earlier in the path, and that a single-occurrence
no-suffix match is processed.  The code does the opposite: the bare single
occurrence `foo` (no suffix, no earlier occurrence) is skipped, while
`x.foo.foo` (no suffix, earlier occurrence) is processed. -/
theorem split_call_path_counterexample :
    split_call_path [PathElem.name "foo"] "foo" = none
    ∧ split_call_path [PathElem.name "x", PathElem.name "foo", PathElem.name "foo"] "foo"
        = some ([PathElem.name "x", PathElem.name "foo"], []) :=
  ⟨rfl, rfl⟩

/-- C6 (amended): each matched call path is split at the rightmost occurrence
of the search name — the element at the split index matches and nothing after
it matches; a match is skipped exactly when it has no suffix and the rightmost
occurrence is also the first occurrence (equivalently: the name does not occur
earlier), i.e. a bare single occurrence with no trailing segments; a processed
match yields exactly the prefix before and the suffix after the split index. -/
theorem split_call_path_characterization (path : List PathElem) (fn : String)
    (hp : ∃ e ∈ path, path_elem_matches fn e = true) :
    (∃ e, (path.drop (listRightIndex path fn)).head? = some e
        ∧ path_elem_matches fn e = true)
    ∧ (∀ e ∈ path.drop (listRightIndex path fn + 1), path_elem_matches fn e = false)
    ∧ (split_call_path path fn = none ↔
        path.drop (listRightIndex path fn + 1) = []
        ∧ path.findIdx (path_elem_matches fn) = listRightIndex path fn)
    ∧ (path.findIdx (path_elem_matches fn) = listRightIndex path fn ↔
        ∀ e ∈ path.take (listRightIndex path fn), path_elem_matches fn e = false)
    ∧ (split_call_path path fn ≠ none →
        split_call_path path fn =
          some (path.take (listRightIndex path fn),
                path.drop (listRightIndex path fn + 1))) := by
  have hrev : ∃ e ∈ path.reverse, path_elem_matches fn e = true := by
    obtain ⟨e, he, hm⟩ := hp
    exact ⟨e, List.mem_reverse.2 he, hm⟩
  have hk : path.reverse.findIdx (path_elem_matches fn) < path.length := by
    have := List.findIdx_lt_length_of_exists hrev
    rwa [List.length_reverse] at this
  have hi : listRightIndex path fn =
      path.length - path.reverse.findIdx (path_elem_matches fn) - 1 := rfl
  have hilen : listRightIndex path fn < path.length := by omega
  -- the element at the rightmost index matches
  have hmatch : ∀ (h : listRightIndex path fn < path.length),
      path_elem_matches fn path[listRightIndex path fn] = true := by
    intro h
    have hb : path.reverse.findIdx (path_elem_matches fn) < path.reverse.length := by
      rw [List.length_reverse]; exact hk
    have heq := @List.findIdx_getElem _ (path_elem_matches fn) path.reverse hb
    rw [List.getElem_reverse] at heq
    have hidx : path.length - 1 - path.reverse.findIdx (path_elem_matches fn) =
        listRightIndex path fn := by omega
    simp only [hidx] at heq
    exact heq
  -- nothing strictly after the rightmost index matches
  have hafter : ∀ (j : Nat) (hj : j < path.length), listRightIndex path fn < j →
      path_elem_matches fn path[j] = false := by
    intro j hj hij
    have hm : path.length - 1 - j < path.reverse.findIdx (path_elem_matches fn) := by
      omega
    have hres := @List.not_of_lt_findIdx _ (path_elem_matches fn) path.reverse
      (path.length - 1 - j) hm
    rw [List.getElem_reverse] at hres
    have hidx : path.length - 1 - (path.length - 1 - j) = j := by omega
    simp only [hidx] at hres
    exact hres
  refine ⟨?_, ?_, ?_, ?_, ?_⟩
  · refine ⟨path[listRightIndex path fn], ?_, hmatch hilen⟩
    rw [List.head?_drop]
    exact List.getElem?_eq_getElem hilen
  · intro e he
    obtain ⟨j, hj, hje⟩ := List.mem_iff_getElem.1 he
    have hj2 : listRightIndex path fn + 1 + j < path.length := by
      have := hj
      simp only [List.length_drop] at this
      omega
    rw [← hje, List.getElem_drop]
    exact hafter (listRightIndex path fn + 1 + j) hj2 (by omega)
  · rw [split_call_path]
    simp only [bne, Bool.not_not]
    by_cases hempty : (path.drop (listRightIndex path fn + 1)).isEmpty = true
    · by_cases hfi : path.findIdx (path_elem_matches fn) = listRightIndex path fn
      · simp [hempty, hfi, List.isEmpty_iff.1 hempty]
      · have hbeq : (path.findIdx (path_elem_matches fn) == listRightIndex path fn)
            = false := by simpa using hfi
        simp [hempty, hbeq, hfi]
    · have hne : path.drop (listRightIndex path fn + 1) ≠ [] := by
        intro h
        exact hempty (by simp [h])
      simp [hempty, hne]
  · constructor
    · intro hfi e he
      obtain ⟨j, hj, hje⟩ := List.mem_iff_getElem.1 he
      have hji : j < listRightIndex path fn := by
        have := hj
        simp only [List.length_take] at this
        omega
      rw [← hje, List.getElem_take]
      exact List.not_of_lt_findIdx (by rw [hfi]; exact hji)
    · intro hnone
      rw [List.findIdx_eq hilen]
      refine ⟨hmatch hilen, ?_⟩
      intro j hji
      have hjlen : j < path.length := by omega
      have hmem : path[j] ∈ path.take (listRightIndex path fn) := by
        have hlt : j < (path.take (listRightIndex path fn)).length := by
          simp only [List.length_take]
          omega
        have hgt : (path.take (listRightIndex path fn))[j] = path[j] :=
          List.getElem_take path
        rw [← hgt]
        exact List.getElem_mem _
      exact hnone path[j] hmem
  · intro hne
    rw [split_call_path] at hne ⊢
    simp only [bne, Bool.not_not] at hne ⊢
    by_cases hcond : ((path.drop (listRightIndex path fn + 1)).isEmpty
        && (path.findIdx (path_elem_matches fn) == listRightIndex path fn)) = true
    · exact absurd (by rw [if_pos hcond]) hne
    · rw [if_neg hcond]

def pathW : List PathElem := [PathElem.name "a", PathElem.name "foo", PathElem.name "b"]

/-- Witness for C6 at a concrete path `a.foo(...).b` with one occurrence and a
non-empty suffix: the match is processed and split at the occurrence. -/
theorem split_call_path_characterization_witness :
    (∃ e ∈ pathW, path_elem_matches "foo" e = true)
    ∧ split_call_path pathW "foo" =
        some (pathW.take (listRightIndex pathW "foo"),
              pathW.drop (listRightIndex pathW "foo" + 1)) := by
  have hp : ∃ e ∈ pathW, path_elem_matches "foo" e = true :=
    ⟨PathElem.name "foo", by simp [pathW], rfl⟩
  refine ⟨hp, ?_⟩
  refine (split_call_path_characterization pathW "foo" hp).2.2.2.2 ?_
  intro h
  rw [show split_call_path pathW "foo"
      = some ([PathElem.name "a"], [PathElem.name "b"]) from rfl] at h
  exact Option.noConfusion h

/-! ### Listener pairing in `search_params` (C1)

`search_params` registers one `ParamListener` on the owning function, runs the
per-module backtracking loop, and then removes the listener.  The per-module
search re-enters the external evaluator, which can raise; `Except.error`
models a propagating Python exception.  The removal (line 231) is not inside
`try/finally`. -/

/-- The `for mod in get_directory_modules_for_name(...)` loop of
`search_params`: run `get_params_for_module` on each module in turn and stop
at the first non-empty result (`if result: break`). -/
def search_module_loop (get_params_for_module : Nat → Except Unit (List Nat)) :
    List Nat → Except Unit (List Nat)
  | [] => Except.ok []
  | m :: ms =>
    match get_params_for_module m with
    | Except.error e => Except.error e
    | Except.ok r =>
      if r.isEmpty then search_module_loop get_params_for_module ms else Except.ok r

/-- Lines 219—233 of `search_params`: add a fresh listener to the function's
listener set (modelled as the list of registered listener identities), run the
loop, remove the listener on normal completion.  When the loop raises, Python
skips `func.listeners.remove(listener)` and the exception propagates; the
second component is the function's final listener set. -/
def search_params (dynamic_params : Bool)
    (get_params_for_module : Nat → Except Unit (List Nat))
    (modules : List Nat) (listeners : List Nat) (listener : Nat) :
    Except Unit (List Nat) × List Nat :=
  if ¬ dynamic_params then (Except.ok [], listeners)
  else
    let ls := listeners ++ [listener]
    match search_module_loop get_params_for_module modules with
    | Except.error e => (Except.error e, ls)
    | Except.ok result => (Except.ok result, ls.erase listener)

/-- C1 (code bug): on every normally-returning path — disabled switch, no
match anywhere, first-module match — the listener set is restored, but when
the per-module search raises, `search_params` skips the removal and the
listener (7) leaks into the function's listener set. -/
theorem search_params_listener_leak :
    search_params false (fun _ => Except.ok [42]) [0] [] 7 = (Except.ok [], [])
    ∧ search_params true (fun _ => Except.ok []) [0, 1] [] 7 = (Except.ok [], [])
    ∧ search_params true (fun _ => Except.ok [42]) [0, 1] [] 7 = (Except.ok [42], [])
    ∧ search_params true (fun _ => Except.error ()) [0] [] 7 = (Except.error (), [7])
    ∧ ([7] : List Nat) ≠ [] := by
  refine ⟨rfl, rfl, rfl, rfl, by simp⟩

/-! ### Module discovery (`get_directory_modules_for_name`) (C7, C8, C9) -/

/-- Modelled from the spec: a parsed module — an identity (Python object
identity) and an optional file path. -/
structure Module where
  id : Nat
  path : Option String
deriving DecidableEq, Repr

/-- Modelled from the spec: the file system seen by discovery.  `read` covers
`open(path)` + `f.read()` + `source_to_unicode`; `Except.error` is a read or
decode failure, surfacing as the `IOError` that `check_python_file` catches. -/
structure FileSys where
  listdir : String → List String
  read : String → Except Unit String

/-- Modelled from the spec: the session's parser cache
(`cache.parser_cache[path].parser.module`). -/
def ParserCache := String → Option Module

/-- `os.path.dirname` for `/`-separated paths. -/
def dirname (p : String) : String :=
  let parts := p.splitOn "/"
  if parts.length ≤ 1 then "" else String.intercalate "/" parts.dropLast

/-- Python's `name in source` substring test. -/
def strContains (hay needle : String) : Bool :=
  hay.toList.tails.any fun t => needle.toList.isPrefixOf t

/-- `check_fs`: read the file (this is where `IOError` can arise) and
parse-and-return (`load` is `imports.load_module`) only when the literal
target name occurs in the raw text; otherwise fall through to `None`. -/
def check_fs (fs : FileSys) (load : String → String → Module) (name p : String) :
    Except Unit (Option Module) :=
  match fs.read p with
  | Except.error e => Except.error e
  | Except.ok source =>
    if strContains source name then Except.ok (some (load p source))
    else Except.ok none

/-- `check_python_file`: a cache hit is returned outright (no read, no parse);
otherwise run `check_fs`, swallowing `IOError` into `None`. -/
def check_python_file (cache : ParserCache) (fs : FileSys)
    (load : String → String → Module) (name p : String) : Option Module :=
  match cache p with
  | some m => some m
  | none =>
    match check_fs fs load name p with
    | Except.error _ => none
    | Except.ok r => r

/-- The discovery-relevant configuration switches. -/
structure DiscoverySettings where
  dynamic_params_for_other_modules : Bool
  additional_dynamic_modules : List String

/-- Python `sorted(paths)` on a set of paths: lexicographic order, each
element once. -/
def sorted_paths (paths : List String) : List String :=
  paths.dedup.mergeSort fun a b => decide (a ≤ b)

/-- The inner `for entry in os.listdir(d)` loop of the path collection, for
one seed-module path (`None` paths are skipped by `if p is not None`): every
`.py` entry of the module's directory whose *entry name* is not in
`mod_paths` (the source compares the bare `entry` against the set of full
module paths) contributes `d + os.path.sep + entry`. -/
def sibling_entries (fs : FileSys) (mod_paths : List (Option String))
    (p? : Option String) : List String :=
  match p? with
  | none => []
  | some p =>
    (fs.listdir (dirname p)).filterMap fun entry =>
      if ¬ mod_paths.contains (some entry) ∧ entry.endsWith ".py" then
        some (dirname p ++ "/" ++ entry)
      else none

/-- The path-collection loop of `get_directory_modules_for_name`: the
configured extra set plus the sibling entries of every seed-module path. -/
def collect_paths (st : DiscoverySettings) (fs : FileSys)
    (mod_paths : List (Option String)) : List String :=
  st.additional_dynamic_modules ++ mod_paths.flatMap (sibling_entries fs mod_paths)

/-- The phase-2 yield loop: `c = check_python_file(p); if c is not None and
c not in mods: yield c`. -/
def yield_candidates (cache : ParserCache) (fs : FileSys)
    (load : String → String → Module) (name : String) (mods : List Module) :
    List String → List Module
  | [] => []
  | p :: rest =>
    match check_python_file cache fs load name p with
    | some c =>
      if mods.contains c then yield_candidates cache fs load name mods rest
      else c :: yield_candidates cache fs load name mods rest
    | none => yield_candidates cache fs load name mods rest

/-- The sibling-and-extra phase of discovery as a function of the (filtered)
seed-module set. -/
def discovery_extra_phase (st : DiscoverySettings) (cache : ParserCache)
    (fs : FileSys) (load : String → String → Module) (name : String)
    (mods : List Module) : List Module :=
  yield_candidates cache fs load name mods
    (sorted_paths (collect_paths st fs ((mods.map (·.path)).dedup)))

/-- `get_directory_modules_for_name(mods, name)`.  `modsEnum` is one
enumeration of the Python set `set(m for m in mods if m.path is None or
m.path.endswith('.py'))`: CPython set iteration order is interpreter state
(hashes of object identities), not a function of the set, so it is an
explicit input here.  Phase 1 yields the seed modules in that order; phase 2
runs only when `dynamic_params_for_other_modules` is set. -/
def get_directory_modules_for_name (st : DiscoverySettings) (cache : ParserCache)
    (fs : FileSys) (load : String → String → Module)
    (modsEnum : List Module) (name : String) : List Module :=
  let mods := (modsEnum.filter fun m =>
    match m.path with
    | none => true
    | some p => p.endsWith ".py").dedup
  if st.dynamic_params_for_other_modules then
    mods ++ discovery_extra_phase st cache fs load name mods
  else mods

/-- C7 (amended): the textual pre-filter of discovery.  For a NON-CACHED
candidate whose file reads successfully: if the target name is not a
substring of the raw text, `check_python_file` returns `None` (the file is
not yielded) and the result does not depend on the parser at all (the file is
never parsed); and whenever a module is returned, the substring pre-check
succeeded and the module is exactly the parse of that file.  (A cached
candidate is yielded without any text check — see the counterexample.) -/
theorem check_python_file_filter (cache : ParserCache) (fs : FileSys)
    (load load2 : String → String → Module) (name p source : String)
    (hcache : cache p = none) (hread : fs.read p = Except.ok source) :
    (strContains source name = false →
      check_python_file cache fs load name p = none
      ∧ check_python_file cache fs load name p = check_python_file cache fs load2 name p)
    ∧ (∀ m : Module, check_python_file cache fs load name p = some m →
        strContains source name = true ∧ m = load p source) := by
  by_cases hsc : strContains source name = true
  · constructor
    · intro hno
      rw [hno] at hsc
      exact absurd hsc (by simp)
    · intro m hm
      refine ⟨hsc, ?_⟩
      simp only [check_python_file, check_fs, hcache, hread, hsc, if_true] at hm
      exact (Option.some.inj hm).symm
  · have hsc2 : strContains source name = false := by
      cases h : strContains source name
      · rfl
      · exact absurd h hsc
    constructor
    · intro _
      constructor
      · simp [check_python_file, check_fs, hcache, hread, hsc2]
      · simp [check_python_file, check_fs, hcache, hread, hsc2]
    · intro m hm
      simp [check_python_file, check_fs, hcache, hread, hsc2] at hm

/-- Concrete file system, cache, and parser used by the discovery witnesses. -/
def fsW : FileSys :=
  { listdir := fun _ => []
    read := fun p =>
      if p = "a/good.py" then Except.ok "nothing here" else Except.error () }

def cacheW : ParserCache := fun _ => none

def loadW : String → String → Module := fun p _ => { id := 99, path := some p }

def loadW2 : String → String → Module := fun p _ => { id := 100, path := some p }

/-- Witness for C7 at a concrete non-cached readable file whose text does not
contain the target name. -/
theorem check_python_file_filter_witness :
    cacheW "a/good.py" = none
    ∧ fsW.read "a/good.py" = Except.ok "nothing here"
    ∧ strContains "nothing here" "target" = false
    ∧ check_python_file cacheW fsW loadW "target" "a/good.py" = none
    ∧ check_python_file cacheW fsW loadW "target" "a/good.py"
        = check_python_file cacheW fsW loadW2 "target" "a/good.py" := by
  have happ := (check_python_file_filter cacheW fsW loadW loadW2 "target" "a/good.py"
    "nothing here" rfl (by simp [fsW])).1 (by decide)
  exact ⟨rfl, by simp [fsW], by decide, happ.1, happ.2⟩

def cachedModule : Module := { id := 7, path := some "a/cached.py" }

def cacheW2 : ParserCache :=
  fun p => if p = "a/cached.py" then some cachedModule else none

def fsW2 : FileSys :=
  { listdir := fun _ => [], read := fun _ => Except.ok "no occurrence" }

/-- C7 counterexample: a candidate already in the parser cache is yielded even
though its raw text does not contain the target name — the cache hit
short-circuits the substring pre-check, so the claim's unconditional "never
yielded" clause fails for cached files. -/
theorem check_python_file_cached_counterexample :
    strContains "no occurrence" "target" = false
    ∧ fsW2.read "a/cached.py" = Except.ok "no occurrence"
    ∧ check_python_file cacheW2 fsW2 loadW "target" "a/cached.py" = some cachedModule
    ∧ yield_candidates cacheW2 fsW2 loadW "target" [] ["a/cached.py"]
        = [cachedModule] := by
  refine ⟨by decide, rfl, rfl, rfl⟩

/-- C8: a read or decode failure on one candidate is swallowed:
`check_python_file` maps it to `None`, and the phase-2 loop simply continues
with the remaining candidates (and, being a total function, never propagates
a per-file failure out of discovery). -/
theorem discovery_error_skip (cache : ParserCache) (fs : FileSys)
    (load : String → String → Module) (name p : String) (mods : List Module)
    (rest : List String)
    (hcache : cache p = none) (hread : fs.read p = Except.error ()) :
    check_python_file cache fs load name p = none
    ∧ yield_candidates cache fs load name mods (p :: rest)
      = yield_candidates cache fs load name mods rest := by
  have h1 : check_python_file cache fs load name p = none := by
    simp [check_python_file, check_fs, hcache, hread]
  refine ⟨h1, ?_⟩
  rw [yield_candidates, h1]

/-- Witness for C8 at a concrete unreadable file in the middle of the
candidate sequence. -/
theorem discovery_error_skip_witness :
    cacheW "a/bad.py" = none
    ∧ fsW.read "a/bad.py" = Except.error ()
    ∧ check_python_file cacheW fsW loadW "target" "a/bad.py" = none
    ∧ yield_candidates cacheW fsW loadW "target" [] ["a/bad.py", "a/good.py"]
      = yield_candidates cacheW fsW loadW "target" [] ["a/good.py"] := by
  have happ := discovery_error_skip cacheW fsW loadW "target" "a/bad.py" []
    ["a/good.py"] rfl (by simp [fsW])
  exact ⟨rfl, by simp [fsW], happ.1, happ.2⟩

theorem perm_contains {α : Type} [BEq α] {l1 l2 : List α}
    (h : l1.Perm l2) (c : α) : l1.contains c = l2.contains c := by
  induction h with
  | nil => rfl
  | cons x _ ih => rw [List.contains_cons, List.contains_cons, ih]
  | swap x y l =>
    rw [List.contains_cons, List.contains_cons, List.contains_cons,
      List.contains_cons, Bool.or_left_comm]
  | trans _ _ ih1 ih2 => exact ih1.trans ih2

theorem sorted_paths_sorted (paths : List String) :
    List.Sorted (· ≤ ·) (sorted_paths paths) :=
  List.sorted_mergeSort' paths.dedup

theorem sorted_paths_perm_eq {p1 p2 : List String} (h : p1.Perm p2) :
    sorted_paths p1 = sorted_paths p2 := by
  refine List.eq_of_perm_of_sorted ?_ (sorted_paths_sorted p1) (sorted_paths_sorted p2)
  exact (List.mergeSort_perm _ _).trans (h.dedup.trans (List.mergeSort_perm _ _).symm)

theorem sibling_entries_perm_eq (fs : FileSys) {mp1 mp2 : List (Option String)}
    (h : mp1.Perm mp2) (p? : Option String) :
    sibling_entries fs mp1 p? = sibling_entries fs mp2 p? := by
  cases p? with
  | none => rfl
  | some p =>
    rw [sibling_entries, sibling_entries]
    congr 1
    funext entry
    simp only [perm_contains h (some entry)]

theorem collect_paths_perm (st : DiscoverySettings) (fs : FileSys)
    {mp1 mp2 : List (Option String)} (h : mp1.Perm mp2) :
    (collect_paths st fs mp1).Perm (collect_paths st fs mp2) := by
  rw [collect_paths, collect_paths]
  refine List.Perm.append_left _ ?_
  have hstep : mp1.flatMap (sibling_entries fs mp1)
      = mp1.flatMap (sibling_entries fs mp2) := by
    refine congrArg _ (funext fun p? => ?_)
    exact sibling_entries_perm_eq fs h p?
  rw [hstep]
  exact List.Perm.flatMap_right _ h

theorem yield_candidates_perm_eq (cache : ParserCache) (fs : FileSys)
    (load : String → String → Module) (name : String)
    {mods1 mods2 : List Module} (h : mods1.Perm mods2) (ps : List String) :
    yield_candidates cache fs load name mods1 ps
      = yield_candidates cache fs load name mods2 ps := by
  induction ps with
  | nil => rfl
  | cons p rest ih =>
    rw [yield_candidates, yield_candidates]
    cases check_python_file cache fs load name p with
    | none => exact ih
    | some c =>
      show (if mods1.contains c = true then yield_candidates cache fs load name mods1 rest
            else c :: yield_candidates cache fs load name mods1 rest)
          = (if mods2.contains c = true then yield_candidates cache fs load name mods2 rest
            else c :: yield_candidates cache fs load name mods2 rest)
      rw [perm_contains h c, ih]

theorem discovery_extra_phase_perm_eq (st : DiscoverySettings) (cache : ParserCache)
    (fs : FileSys) (load : String → String → Module) (name : String)
    {mods1 mods2 : List Module} (h : mods1.Perm mods2) :
    discovery_extra_phase st cache fs load name mods1
      = discovery_extra_phase st cache fs load name mods2 := by
  rw [discovery_extra_phase, discovery_extra_phase]
  rw [yield_candidates_perm_eq cache fs load name h]
  rw [sorted_paths_perm_eq (collect_paths_perm st fs ((h.map (·.path)).dedup))]

/-- C9 (amended): the sibling-and-extra phase of discovery is deterministic —
its candidate path sequence is sorted lexicographically (each path once), and
the phase's output depends only on the *set* of seed modules, not on the
enumeration order of the Python set holding them; moreover, with a single
seed module (the only way `search_params` calls discovery) the entire output
is determined by the inputs.  The seed-module phase itself, however, yields
the seeds in Python-set iteration order, which is interpreter state rather
than a function of the seed set, so the full sequence is not deterministic
across runs for two or more seed modules (see the counterexample). -/
theorem discovery_sorted_deterministic (st : DiscoverySettings) (cache : ParserCache)
    (fs : FileSys) (load : String → String → Module) (name : String) :
    (∀ paths : List String, List.Sorted (· ≤ ·) (sorted_paths paths))
    ∧ (∀ mods1 mods2 : List Module, mods1.Perm mods2 →
        discovery_extra_phase st cache fs load name mods1
          = discovery_extra_phase st cache fs load name mods2)
    ∧ (∀ (m : Module) (e1 e2 : List Module), e1.Perm [m] → e2.Perm [m] →
        get_directory_modules_for_name st cache fs load e1 name
          = get_directory_modules_for_name st cache fs load e2 name) := by
  refine ⟨sorted_paths_sorted, ?_, ?_⟩
  · intro mods1 mods2 h
    exact discovery_extra_phase_perm_eq st cache fs load name h
  · intro m e1 e2 h1 h2
    rw [List.perm_singleton.1 h1, List.perm_singleton.1 h2]

def mw1 : Module := { id := 1, path := none }

def mw2 : Module := { id := 2, path := none }

def stOff : DiscoverySettings :=
  { dynamic_params_for_other_modules := false, additional_dynamic_modules := [] }

/-- C9 counterexample: two enumerations of the same two-element seed set (the
two orders CPython's set iteration can produce across interpreter runs) make
`get_directory_modules_for_name` yield the same modules in different orders,
so the claim that two runs on identical seed modules always produce the same
order fails. -/
theorem discovery_seed_order_counterexample :
    [mw1, mw2].Perm [mw2, mw1]
    ∧ get_directory_modules_for_name stOff cacheW fsW loadW [mw1, mw2] "n"
        ≠ get_directory_modules_for_name stOff cacheW fsW loadW [mw2, mw1] "n" := by
  constructor
  · exact List.Perm.swap mw2 mw1 []
  · decide

/-- Witness for C9 at a concrete permutation pair and a concrete singleton
enumeration. -/
theorem discovery_sorted_deterministic_witness :
    [mw1, mw2].Perm [mw2, mw1]
    ∧ discovery_extra_phase stOff cacheW fsW loadW "n" [mw1, mw2]
        = discovery_extra_phase stOff cacheW fsW loadW "n" [mw2, mw1]
    ∧ [mw1].Perm [mw1]
    ∧ get_directory_modules_for_name stOff cacheW fsW loadW [mw1] "n"
        = get_directory_modules_for_name stOff cacheW fsW loadW [mw1] "n" := by
  have hp : [mw1, mw2].Perm [mw2, mw1] := List.Perm.swap mw2 mw1 []
  refine ⟨hp, ?_, List.Perm.refl _, ?_⟩
  · exact (discovery_sorted_deterministic stOff cacheW fsW loadW "n").2.1 _ _ hp
  · exact (discovery_sorted_deterministic stOff cacheW fsW loadW "n").2.2 mw1 [mw1] [mw1]
      (List.Perm.refl _) (List.Perm.refl _)

/-! ### Flow narrowing (`check_flow_information`, `_check_isinstance_type`)
(C3, C4, C5, C10) -/

/-- Modelled from the spec: an evaluator-level value.  `iterable.Array`
results carry their index types (`get_index_types`); everything else is an
opaque object. -/
inductive Value where
  | array (index_types : List Value) : Value
  | obj (id : Nat) : Value

/-- Modelled from the spec: the two operations of the external evaluator that
`_check_isinstance_type` consumes: `evaluator.eval_call` on the type-denoting
expression and `evaluator.execute` on each resulting type. -/
structure Evaluator where
  eval_call : Expr → List Value
  execute : Value → List Value

/-- `c.get_index_types() if isinstance(c, iterable.Array) else [c]`. -/
def get_index_types_or_self (v : Value) : List Value :=
  match v with
  | .array ts => ts
  | .obj i => [Value.obj i]

/-- Python `str(call.name)`: a `Name`'s dotted parts joined with `.`;
`str(None)` for a non-`Name`. -/
def str_of_name (n : Option (List String)) : String :=
  match n with
  | some parts => String.intercalate "." parts
  | none => "None"

/-- `isinstance(e, pr.StatementElement)`: calls and container literals are
statement elements (`Array` subclasses `Call` subclasses `StatementElement`
in the parser — "can be type or tuple"); operators/literals are not. -/
def is_statement_element (e : Expr) : Bool :=
  match e with
  | .call _ => true
  | .array _ => true
  | .atom _ => false

/-- `_check_isinstance_type(evaluator, stmt, search_name)`: the assert cascade
(any failing assert is caught and yields `[]`), then
`for c in evaluator.eval_call(classes[0]): for typ in (c.get_index_types() if
isinstance(c, iterable.Array) else [c]): result += evaluator.execute(typ)`. -/
def _check_isinstance_type (evaluator : Evaluator) (stmt : Stmt)
    (search_name : String) : List Value :=
  match stmt.expression_list with
  | [Expr.call call] =>
    if str_of_name call.name == "isinstance" then
      match call.execution with
      | some execution =>
        match execution.values with
        | [obj_stmt, classes_stmt] =>
          match obj_stmt.expression_list, classes_stmt.expression_list with
          | [Expr.call obj0], [classes0] =>
            if str_of_name obj0.name == search_name
                && is_statement_element classes0 then
              (evaluator.eval_call classes0).flatMap fun c =>
                (get_index_types_or_self c).flatMap evaluator.execute
            else []
          | _, _ => []
        | _ => []
      | none => []
    else []
  | _ => []

/-- The type-guard pattern exactly as the spec states it: the statement
reduces to exactly one expression, a call invoking `isinstance` with an
execution of exactly two argument statements; the first argument reduces to
exactly one expression that is itself a call whose name textually equals the
queried variable name; the second argument reduces to exactly one
statement-element (a form that can denote a type or a tuple of types),
`cls`. -/
def IsIsinstanceGuard (stmt : Stmt) (search_name : String) (cls : Expr) : Prop :=
  ∃ call obj0 : CallT,
    stmt.expression_list = [Expr.call call]
    ∧ str_of_name call.name = "isinstance"
    ∧ ∃ execution : Arr,
        call.execution = some execution
        ∧ ∃ obj_stmt classes_stmt : Stmt,
            execution.values = [obj_stmt, classes_stmt]
            ∧ obj_stmt.expression_list = [Expr.call obj0]
            ∧ classes_stmt.expression_list = [cls]
            ∧ str_of_name obj0.name = search_name
            ∧ is_statement_element cls = true

/-- Modelled from the spec: an assert statement of a scope: its start position
(line, column) and the statement handed to the type-guard matcher. -/
structure AssertNode where
  start_pos : Nat × Nat
  body : Stmt

/-- Modelled from the spec: the duck-typed flow context handed to
`check_flow_information`: a Scope (carrying its asserts in source order)
and/or a Flow (carrying a command tag and condition inputs);
`isinstance`-style tests become the two Booleans. -/
structure FlowObj where
  is_scope : Bool
  asserts : List AssertNode
  is_flow : Bool
  command : String
  inputs : List Stmt

/-- Python tuple comparison `ass.start_pos > pos` on (line, column). -/
def pos_gt (a b : Nat × Nat) : Bool :=
  decide (b.1 < a.1 ∨ (a.1 = b.1 ∧ b.2 < a.2))

/-- The `for ass in reversed(flow.asserts)` loop of `check_flow_information`
(the caller passes the asserts already reversed): `continue` when there is no
query position or the assert starts after it; otherwise run the type-guard
matcher and stop at the first non-empty result. -/
def assert_loop (check : Stmt → List Value) :
    Option (Nat × Nat) → List AssertNode → List Value
  | _, [] => []
  | none, _ :: rest => assert_loop check none rest
  | some p, a :: rest =>
    if pos_gt a.start_pos p then assert_loop check (some p) rest
    else if (check a.body).isEmpty then assert_loop check (some p) rest
    else check a.body

/-- The first non-empty matcher result in a list of asserts (used to state
what the loop computes on the considered asserts). -/
def first_matching (check : Stmt → List Value) : List AssertNode → List Value
  | [] => []
  | a :: rest =>
    if (check a.body).isEmpty then first_matching check rest else check a.body

/-- The assert-narrowing half of `check_flow_information`: only a Scope
context is scanned. -/
def scope_result (evaluator : Evaluator) (flow : FlowObj) (search_name : String)
    (pos : Option (Nat × Nat)) : List Value :=
  if flow.is_scope then
    assert_loop (fun s => _check_isinstance_type evaluator s search_name) pos
      flow.asserts.reverse
  else []

/-- The branch-narrowing half of `check_flow_information`: taken only when the
assert phase produced nothing and the context is a Flow with command `if` or
`while` and exactly one condition input. -/
def branch_result (evaluator : Evaluator) (flow : FlowObj) (search_name : String)
    (r1 : List Value) : List Value :=
  if flow.is_flow && r1.isEmpty then
    if (flow.command == "if" || flow.command == "while")
        && flow.inputs.length == 1 then
      match flow.inputs with
      | input :: _ => _check_isinstance_type evaluator input search_name
      | [] => r1
    else r1
  else r1

/-- `check_flow_information(evaluator, flow, search_name, pos)`: `None` when
the `dynamic_flow_information` switch is off (the source's `return None`),
otherwise the assert phase followed, on an empty result, by the branch
phase. -/
def check_flow_information (evaluator : Evaluator)
    (dynamic_flow_information : Bool) (flow : FlowObj) (search_name : String)
    (pos : Option (Nat × Nat)) : Option (List Value) :=
  if ¬ dynamic_flow_information then none
  else
    some (branch_result evaluator flow search_name
      (scope_result evaluator flow search_name pos))

theorem assert_loop_none (check : Stmt → List Value) (l : List AssertNode) :
    assert_loop check none l = [] := by
  induction l with
  | nil => rfl
  | cons a rest ih => rw [assert_loop, ih]

theorem assert_loop_eq_first_matching (check : Stmt → List Value) (p : Nat × Nat)
    (l : List AssertNode) :
    assert_loop check (some p) l
      = first_matching check (l.filter fun a => !pos_gt a.start_pos p) := by
  induction l with
  | nil => rfl
  | cons a rest ih =>
    rw [assert_loop, List.filter_cons]
    by_cases hgt : pos_gt a.start_pos p = true
    · rw [if_pos hgt, ih]
      have hb : (!pos_gt a.start_pos p) = false := by rw [hgt]; rfl
      rw [hb]
      rfl
    · have hgtf : pos_gt a.start_pos p = false := by
        cases h : pos_gt a.start_pos p
        · rfl
        · exact absurd h hgt
      have hb : (!pos_gt a.start_pos p) = true := by rw [hgtf]; rfl
      rw [if_neg hgt, hb, if_pos rfl, first_matching]
      by_cases he : (check a.body).isEmpty = true
      · rw [if_pos he, if_pos he, ih]
      · rw [if_neg he, if_neg he]

/-! ### Concrete guard statements and a concrete evaluator -/

def xCall : CallT := .mk (some ["x"]) none none

def intCall : CallT := .mk (some ["int"]) none none

def strCall : CallT := .mk (some ["str"]) none none

def objStmtX : Stmt := .mk [Expr.call xCall] []

def clsStmtInt : Stmt := .mk [Expr.call intCall] []

def clsStmtStr : Stmt := .mk [Expr.call strCall] []

/-- The tuple literal `(int, str)`. -/
def tupArr : Arr := .mk ArrType.tuple [] [clsStmtInt, clsStmtStr]

def clsStmtTup : Stmt := .mk [Expr.array tupArr] []

def execArrInt : Arr := .mk ArrType.noarray [] [objStmtX, clsStmtInt]

def execArrStr : Arr := .mk ArrType.noarray [] [objStmtX, clsStmtStr]

def execArrTup : Arr := .mk ArrType.noarray [] [objStmtX, clsStmtTup]

def isinstCallInt : CallT := .mk (some ["isinstance"]) (some execArrInt) none

def isinstCallStr : CallT := .mk (some ["isinstance"]) (some execArrStr) none

def isinstCallTup : CallT := .mk (some ["isinstance"]) (some execArrTup) none

/-- `isinstance(x, int)`. -/
def guardStmtInt : Stmt := .mk [Expr.call isinstCallInt] []

/-- `assert isinstance(x, str)`'s statement. -/
def guardStmtStr : Stmt := .mk [Expr.call isinstCallStr] []

/-- `isinstance(x, (int, str))`. -/
def guardStmtTup : Stmt := .mk [Expr.call isinstCallTup] []

/-- `x == 1`: an unsupported narrowing idiom. -/
def badStmt : Stmt := .mk [Expr.call xCall, Expr.atom "==", Expr.atom "1"] []

/-- A concrete evaluator: `int` resolves to type 1, `str` to type 2, a
container literal to an `iterable.Array` of both, and executing a type yields
the type itself. -/
def demo_evaluator : Evaluator :=
  { eval_call := fun e =>
      match e with
      | Expr.call c =>
        if str_of_name c.name == "int" then [Value.obj 1]
        else if str_of_name c.name == "str" then [Value.obj 2]
        else []
      | Expr.array _ => [Value.array [Value.obj 1, Value.obj 2]]
      | Expr.atom _ => []
    execute := fun v => [v] }

def flowIfInt : FlowObj :=
  { is_scope := false, asserts := [], is_flow := true, command := "if"
    inputs := [guardStmtInt] }

def flowIfTup : FlowObj :=
  { is_scope := false, asserts := [], is_flow := true, command := "if"
    inputs := [guardStmtTup] }

def flowIfBad : FlowObj :=
  { is_scope := false, asserts := [], is_flow := true, command := "if"
    inputs := [badStmt] }

def flowAssertAt : FlowObj :=
  { is_scope := true, asserts := [{ start_pos := (3, 0), body := guardStmtInt }]
    is_flow := false, command := "", inputs := [] }

def flowAssertsW : FlowObj :=
  { is_scope := true
    asserts := [{ start_pos := (1, 0), body := guardStmtInt },
                { start_pos := (2, 0), body := guardStmtStr },
                { start_pos := (10, 0), body := guardStmtInt }]
    is_flow := false, command := "", inputs := [] }

theorem check_isinstance_guard_eval (ev : Evaluator) (stmt : Stmt) (n : String)
    (cls : Expr) (hg : IsIsinstanceGuard stmt n cls) :
    _check_isinstance_type ev stmt n =
      (ev.eval_call cls).flatMap fun c =>
        (get_index_types_or_self c).flatMap ev.execute := by
  obtain ⟨call, obj0, h1, h2, execution, h3, obj_stmt, classes_stmt, h4, h5, h6, h7, h8⟩ := hg
  rw [_check_isinstance_type.eq_def, h1]
  simp only []
  rw [h2]
  simp only [beq_self_eq_true, if_true]
  rw [h3]
  simp only []
  rw [h4]
  simp only []
  rw [h5, h6]
  simp only []
  rw [h7]
  simp only [beq_self_eq_true, h8, Bool.and_self, if_true]

theorem check_isinstance_no_guard (ev : Evaluator) (stmt : Stmt) (n : String)
    (hno : ∀ cls, ¬ IsIsinstanceGuard stmt n cls) :
    _check_isinstance_type ev stmt n = [] := by
  rw [_check_isinstance_type.eq_def]
  split <;> try rfl
  rename_i call heq
  by_cases hname : (str_of_name call.name == "isinstance") = true
  · rw [if_pos hname]
    split <;> try rfl
    rename_i execution heq2
    split <;> try rfl
    rename_i obj_stmt classes_stmt heq3
    split <;> try rfl
    rename_i obj0 classes0 heq4 heq5
    by_cases hcond : (str_of_name obj0.name == n && is_statement_element classes0) = true
    · exfalso
      rw [Bool.and_eq_true] at hcond
      exact hno classes0 ⟨call, obj0, heq, beq_iff_eq.1 hname, execution, heq2,
        obj_stmt, classes_stmt, heq3, heq4, heq5,
        beq_iff_eq.1 hcond.1, hcond.2⟩
    · rw [if_neg hcond]
  · rw [if_neg hname]

/-- C3: the type-guard match.  It succeeds exactly on the spec's pattern — one
top-level expression which is an `isinstance` call with exactly two arguments,
the first reducing to a single call whose name textually equals the queried
variable, the second to a single type-denoting statement element — and then
evaluates the second argument, expands a container result into its elements,
executes each and unions the results; any structural deviation yields `[]`
rather than an error.  Concretely (through `check_flow_information` on an `if`
flow): `isinstance(x, int)` narrows to the `int` type, `isinstance(x, (int,
str))` to both types, and `x == 1` to nothing. -/
theorem check_isinstance_type_spec :
    (∀ (ev : Evaluator) (stmt : Stmt) (n : String) (cls : Expr),
        IsIsinstanceGuard stmt n cls →
        _check_isinstance_type ev stmt n =
          (ev.eval_call cls).flatMap fun c =>
            (get_index_types_or_self c).flatMap ev.execute)
    ∧ (∀ (ev : Evaluator) (stmt : Stmt) (n : String),
        (∀ cls, ¬ IsIsinstanceGuard stmt n cls) →
        _check_isinstance_type ev stmt n = [])
    ∧ check_flow_information demo_evaluator true flowIfInt "x" none
        = some [Value.obj 1]
    ∧ check_flow_information demo_evaluator true flowIfTup "x" none
        = some [Value.obj 1, Value.obj 2]
    ∧ check_flow_information demo_evaluator true flowIfBad "x" none = some [] :=
  ⟨check_isinstance_guard_eval, check_isinstance_no_guard, rfl, rfl, rfl⟩

/-- Witness for C3: the guard hypothesis holds at `isinstance(x, int)` and
fails everywhere at `x == 1`; the theorem applied there gives the evaluated
result and the empty result respectively. -/
theorem check_isinstance_type_spec_witness :
    IsIsinstanceGuard guardStmtInt "x" (Expr.call intCall)
    ∧ _check_isinstance_type demo_evaluator guardStmtInt "x" =
        ((demo_evaluator.eval_call (Expr.call intCall)).flatMap fun c =>
          (get_index_types_or_self c).flatMap demo_evaluator.execute)
    ∧ (∀ cls, ¬ IsIsinstanceGuard badStmt "x" cls)
    ∧ _check_isinstance_type demo_evaluator badStmt "x" = [] := by
  have hg : IsIsinstanceGuard guardStmtInt "x" (Expr.call intCall) :=
    ⟨isinstCallInt, xCall, rfl, rfl, execArrInt, rfl, objStmtX, clsStmtInt,
      rfl, rfl, rfl, rfl, rfl⟩
  have hno : ∀ cls, ¬ IsIsinstanceGuard badStmt "x" cls := by
    rintro cls ⟨c, o, h, -⟩
    simp [badStmt, Stmt.expression_list] at h
  exact ⟨hg,
    check_isinstance_type_spec.1 demo_evaluator guardStmtInt "x" (Expr.call intCall) hg,
    hno,
    check_isinstance_type_spec.2.1 demo_evaluator badStmt "x" hno⟩

/-- C4 (amended): within assert narrowing, the asserts are scanned in reverse
source order, exactly those starting strictly AFTER the query position are
skipped (an assert exactly AT the position is considered — the source's test
is `ass.start_pos > pos`), and among the considered asserts the most recent
one with a non-empty type-guard match wins. -/
theorem check_flow_assert_ordering (ev : Evaluator) (flow : FlowObj) (n : String)
    (p : Nat × Nat) (hs : flow.is_scope = true) (hf : flow.is_flow = false) :
    check_flow_information ev true flow n (some p) =
      some (first_matching (fun s => _check_isinstance_type ev s n)
        ((flow.asserts.reverse).filter fun a => !pos_gt a.start_pos p)) := by
  rw [check_flow_information, if_neg (not_not_intro rfl)]
  have hb : ∀ r1 : List Value, branch_result ev flow n r1 = r1 := by
    intro r1
    rw [branch_result, hf, Bool.false_and]
    rfl
  rw [hb, scope_result, if_pos hs, assert_loop_eq_first_matching]

/-- C4 counterexample: the claim says an assert positioned AT the query
position is skipped; the code considers it (only `start_pos > pos` is
skipped) and returns its narrowing. -/
theorem check_flow_assert_at_position_counterexample :
    flowAssertAt.asserts = [{ start_pos := (3, 0), body := guardStmtInt }]
    ∧ check_flow_information demo_evaluator true flowAssertAt "x" (some (3, 0))
        = some [Value.obj 1] :=
  ⟨rfl, rfl⟩

/-- Witness for C4: three asserts at lines 1 (`int`), 2 (`str`) and 10
(`int`), queried from line 5: the line-10 assert is skipped, and of the two
considered asserts the more recent one (line 2, `str`) wins. -/
theorem check_flow_assert_ordering_witness :
    flowAssertsW.is_scope = true ∧ flowAssertsW.is_flow = false
    ∧ check_flow_information demo_evaluator true flowAssertsW "x" (some (5, 0))
        = some [Value.obj 2] := by
  refine ⟨rfl, rfl, ?_⟩
  rw [check_flow_assert_ordering demo_evaluator flowAssertsW "x" (5, 0) rfl rfl]
  rfl

/-- C5 (amended): with `dynamic_flow_information` off,
`check_flow_information` immediately returns Python `None` — a result
carrying no narrowed types — for every evaluator, flow context, variable name
and position (rather than the empty *sequence* the claim states). -/
theorem check_flow_disabled_returns_none (ev : Evaluator) (flow : FlowObj)
    (n : String) (pos : Option (Nat × Nat)) :
    check_flow_information ev false flow n pos = none := rfl

/-- C5 counterexample: the disabled-switch result is `None` (`return None`,
line 282), which is not the empty sequence: `None ≠ []` is observable by any
caller that distinguishes the two (e.g. `len(...)` raises on `None`). -/
theorem check_flow_disabled_counterexample :
    check_flow_information demo_evaluator false flowIfInt "x" none = none
    ∧ check_flow_information demo_evaluator false flowIfInt "x" none
        ≠ some ([] : List Value) :=
  ⟨rfl, fun h => Option.noConfusion h⟩

/-- C10: with no query position (`pos is None`) and the switch on, every
assert of the enclosing scope is skipped (`if pos is None or ...: continue`),
so the result is exactly the branch-narrowing result: non-empty only for a
Flow with command `if`/`while` and exactly one condition input. -/
theorem check_flow_no_position_branch_only (ev : Evaluator) (flow : FlowObj)
    (n : String) :
    check_flow_information ev true flow n none =
      some (if flow.is_flow
            && ((flow.command == "if" || flow.command == "while")
                && flow.inputs.length == 1) then
          match flow.inputs with
          | input :: _ => _check_isinstance_type ev input n
          | [] => []
        else []) := by
  rw [check_flow_information, if_neg (not_not_intro rfl)]
  have h1 : scope_result ev flow n none = [] := by
    rw [scope_result]
    by_cases hsc : flow.is_scope = true
    · rw [if_pos hsc, assert_loop_none]
    · rw [if_neg hsc]
  rw [h1, branch_result]
  simp only [List.isEmpty_nil, Bool.and_true]
  cases hflow : flow.is_flow <;> simp

end JediDynamic
